import Mathlib

/-!
Verification of the RecLab recommender core against its design specification.

The development shallowly embeds the recommender core of the repository:

* `divide_zero`, `nlargest_indices`, `cosine_similarity` and `KNNRecommender._predict`
  from `reclab/recommenders/knn_recommender.py`;
* `PredictRecommender.update` / `reset` / `recommend` and the `RatingMatrix`
  class from `reclab/recommenders/recommender.py`.

Numeric arrays are modelled over `ℚ` (exact arithmetic) except for the cosine
similarity, whose row norms require square roots and are modelled over `ℝ`.
Python dicts are modelled as insertion-ordered association lists (a dict
update keeps the position of an existing key and appends new keys), and
Python sets as duplicate-free insertion-ordered lists.

The source file `recommender.py` contains several purely lexical slips that
make a literal run impossible (a missing `import collections/numpy/itertools`,
`isintance` for `isinstance`, a stray parenthesis in `_outer_to_inner_index`,
the parameter `users_contexts` spelled `user_contexts` in the body of
`recommend`, and the undefined locals `user_id`/`item_id` standing for
`index[0]`/`index[1]` in `RatingMatrix.__setitem__`).  Each of these has a
unique local repair dictated by the surrounding line and by the function's
own docstring; the embedding reads through them and each affected definition
notes the repair in its doc comment.  Well-formed code is embedded exactly as
written, including the places where it contradicts its own docstring
(see `user_ordering`).
-/

/- ### Generic helpers: Python dict / set modelling -/

/-- Lookup in an insertion-ordered association list (Python `d[k]` / `k in d`). -/
def alookup {α : Type} [DecidableEq α] {β : Type} (k : α) : List (α × β) → Option β
  | [] => none
  | (k', v) :: rest => if k = k' then some v else alookup k rest

/-- Insert-or-overwrite for an insertion-ordered association list: Python
`d[k] = v`.  An existing key keeps its position and gets the new value; a new
key is appended at the end, exactly like a CPython dict. -/
def upsert {α : Type} [DecidableEq α] {β : Type} (k : α) (v : β) : List (α × β) → List (α × β)
  | [] => [(k, v)]
  | (k', v') :: rest => if k = k' then (k, v) :: rest else (k', v') :: upsert k v rest

/-- Python `d.update(other)`: upsert every binding of `other` in order. -/
def dictUpdate {α : Type} [DecidableEq α] {β : Type}
    (d other : List (α × β)) : List (α × β) :=
  other.foldl (fun acc kv => upsert kv.1 kv.2 acc) d

/-- Python `s.add(x)` on a set modelled as a duplicate-free list. -/
def setAdd {α : Type} [DecidableEq α] (x : α) (s : List α) : List α :=
  if x ∈ s then s else s ++ [x]

/-- Keep the elements of `xs` whose mask entry is `true`: numpy boolean-mask
indexing `xs[mask]`. -/
def maskFilter {α : Type} : List Bool → List α → List α
  | true :: ms, x :: xs => x :: maskFilter ms xs
  | false :: ms, _ :: xs => maskFilter ms xs
  | _, _ => []

/- ### knn_recommender.py: divide_zero -/

/-- Embedding of `divide_zero(num, denom)` from `knn_recommender.py`:
`np.divide(num, denom, out=np.zeros_like(num), where=(denom != 0))` at one
matrix entry.  Where the denominator is exactly `0` the output entry keeps the
prefilled `0`; elsewhere it is the true quotient.  Over `ℚ` the quotient of a
nonzero denominator is always a finite rational, which captures the "never
NaN/Inf" guarantee of the guard. -/
def divide_zero (num denom : ℚ) : ℚ :=
  if denom ≠ 0 then num / denom else 0

/- ### knn_recommender.py: nlargest_indices -/

/-- Embedding of `nlargest_indices(n, iterable)`:
`heapq.nlargest(n, enumerate(iterable), key=lambda x: x[1])`, i.e. the
enumeration of the list sorted by value in descending order, truncated to the
first `n` entries, then projected to the indices.  (`heapq.nlargest` is
documented as equivalent to `sorted(iterable, key=key, reverse=True)[:n]`.) -/
def nlargest_indices (n : ℕ) (xs : List ℚ) : List ℕ :=
  ((xs.enum.insertionSort (fun a b => b.2 ≤ a.2)).take n).map Prod.fst

/- ### Theorems for claims C3 and C10 -/

/-- C3: `divide_zero(x, 0) = 0` for every numerator `x`, and for every
denominator `d ≠ 0`, `divide_zero(x, d) = x / d`; over the exact rationals the
result is always a finite value (never NaN or Inf). -/
theorem C3_divide_zero_safe (x d : ℚ) :
    divide_zero x 0 = 0 ∧ (d ≠ 0 → divide_zero x d = x / d) := by
  constructor
  · simp [divide_zero]
  · intro hd
    simp [divide_zero, hd]

/-- Witness for C3 at the concrete input `x = 3`, `d = 2`. -/
theorem C3_divide_zero_safe_witness :
    divide_zero 3 0 = 0 ∧ divide_zero 3 2 = 3 / 2 :=
  ⟨(C3_divide_zero_safe 3 2).1, (C3_divide_zero_safe 3 2).2 (by norm_num)⟩

/-- C10: for every `n` and every list `xs`, `nlargest_indices n xs` returns
exactly `min n xs.length` pairwise-distinct indices, each within
`[0, xs.length)`; in particular when the list has fewer than `n` elements it
returns all indices rather than failing. -/
theorem C10_nlargest_indices_total (n : ℕ) (xs : List ℚ) :
    (nlargest_indices n xs).length = min n xs.length ∧
    (nlargest_indices n xs).Nodup ∧
    ∀ i ∈ nlargest_indices n xs, i < xs.length := by
  have hperm : List.Perm (xs.enum.insertionSort (fun a b => b.2 ≤ a.2)) xs.enum :=
    List.perm_insertionSort _ _
  refine ⟨?_, ?_, ?_⟩
  · rw [nlargest_indices, List.length_map, List.length_take, hperm.length_eq,
      List.enum_length]
  · have hsub : List.Sublist
        (((xs.enum.insertionSort (fun a b => b.2 ≤ a.2)).take n).map Prod.fst)
        ((xs.enum.insertionSort (fun a b => b.2 ≤ a.2)).map Prod.fst) :=
      (List.take_sublist _ _).map _
    have hnd : ((xs.enum.insertionSort (fun a b => b.2 ≤ a.2)).map Prod.fst).Nodup := by
      have : List.Perm ((xs.enum.insertionSort (fun a b => b.2 ≤ a.2)).map Prod.fst)
          (xs.enum.map Prod.fst) := hperm.map _
      rw [List.enum_map_fst] at this
      exact this.nodup_iff.mpr (List.nodup_range _)
    exact hsub.nodup hnd
  · intro i hi
    rw [nlargest_indices, List.mem_map] at hi
    obtain ⟨p, hp, rfl⟩ := hi
    have hmem : p ∈ xs.enum := hperm.mem_iff.mp (List.mem_of_mem_take hp)
    have := List.fst_lt_of_mem_enum hmem
    simpa [List.enum_length] using this

/- ### knn_recommender.py: KNNRecommender._predict -/

/-- Tolerance of `np.isclose(x, 0)`: `|x - 0| <= atol + rtol * |0| = atol = 1e-8`. -/
def iscloseAtol : ℚ := 1 / 100000000

/-- Entry `m[i, j]` of a matrix stored as a list of rows (out-of-range reads
default to `0`, which the in-range theorems never rely on). -/
def getEntry (m : List (List ℚ)) (i j : ℕ) : ℚ :=
  (m.getD i []).getD j 0

/-- Row `m[i]` of a matrix stored as a list of rows. -/
def rowOf (m : List (List ℚ)) (i : ℕ) : List ℚ :=
  m.getD i []

/-- Embedding of `np.average(vals, weights=ws)`: `sum(vals * ws) / sum(ws)`.
NumPy raises `ZeroDivisionError` when the weight sum is exactly zero; the
embedding totalises that edge with rational division (`x / 0 = 0`).  In
`KNNRecommender._predict` the weight sum is nonzero whenever all remaining
similarities are within `iscloseAtol` of zero (the weights are then uniform
ones over a nonempty list). -/
def npAverage (vals ws : List ℚ) : ℚ :=
  (List.zipWith (· * ·) vals ws).sum / ws.sum

/-- State read by `KNNRecommender._predict`: the hyperparameters fixed at
construction plus the matrices rebuilt by `update`
(`self._similarity_matrix`, `self._ratings_matrix` with users as rows and
items as columns, and the per-row means `self._means`). -/
structure KNNState where
  neighborhoodSize : ℕ
  userBased : Bool
  useMeans : Bool
  similarityMatrix : List (List ℚ)
  ratingsMatrix : List (List ℚ)
  means : List ℚ

/-- Embedding of the body of the `for` loop of `KNNRecommender._predict` for a
single `(user_id, item_id)` request.  Mirrors the source line by line:
the branch on `self._user_based` selects `relevant_idxs` from the similarity
row of the target, the similarity weights `similarity_matrix[relevant_idxs,
target]`, the neighbor ratings (via `ratings_matrix[relevant_idxs, item_id]`
respectively `ratings_matrix.T[relevant_idxs, user_id]`, i.e. entry
`[user_id][r]`), and the target's own mean; then the `ratings != 0` mask
filters ratings, similarities and (at use site) `relevant_means`; all-close-
to-zero similarities are replaced by `np.ones_like`; and the four result
branches follow `self._use_means` and `len(ratings) == 0`. -/
def predictOne (s : KNNState) (userId itemId : ℕ) : ℚ :=
  let data :=
    if s.userBased then
      let rels := nlargest_indices s.neighborhoodSize (rowOf s.similarityMatrix userId)
      (rels,
       rels.map (fun r => getEntry s.similarityMatrix r userId),
       rels.map (fun r => getEntry s.ratingsMatrix r itemId),
       s.means.getD userId 0)
    else
      let rels := nlargest_indices s.neighborhoodSize (rowOf s.similarityMatrix itemId)
      (rels,
       rels.map (fun r => getEntry s.similarityMatrix r itemId),
       rels.map (fun r => getEntry s.ratingsMatrix userId r),
       s.means.getD itemId 0)
  match data with
  | (rels, sims, ratings, mean) =>
    let relevantMeans := rels.map (fun r => s.means.getD r 0)
    let nonzero := ratings.map (fun x => decide (x ≠ 0))
    let ratingsF := maskFilter nonzero ratings
    let simsF := maskFilter nonzero sims
    let simsW := if simsF.all (fun v => decide (|v| ≤ iscloseAtol))
      then simsF.map (fun _ => 1) else simsF
    if s.useMeans then
      if ratingsF.length = 0 then mean
      else mean + npAverage (List.zipWith (· - ·) ratingsF (maskFilter nonzero relevantMeans))
        simsW
    else
      if ratingsF.length = 0 then 0
      else npAverage ratingsF simsW

/-- Embedding of `KNNRecommender._predict` on a whole request batch: the
source initialises `preds = []`, appends one prediction per `(user_id,
item_id, context)` triple in order (the context is unused, bound to `_`), and
returns the collected array. -/
def predictBatch (s : KNNState) (userItem : List (ℕ × ℕ × List ℚ)) : List ℚ :=
  userItem.foldl (fun preds t => preds ++ [predictOne s t.1 t.2.1]) []

/-- Statement of claim C2 written from the specification's words: restrict the
top-N most-similar neighbors to those with a nonzero rating of the target;
if all remaining similarities are approximately zero use uniform weight `1`;
with mean-centering the prediction is the target's own mean plus the weighted
average of (neighbor rating minus neighbor mean) and the bare mean when no
neighbors remain; without mean-centering it is the weighted average of raw
neighbor ratings and `0` when no neighbors remain. -/
def predictSpec (s : KNNState) (userId itemId : ℕ) : ℚ :=
  let target := if s.userBased then userId else itemId
  let ratingOf : ℕ → ℚ := fun r =>
    if s.userBased then getEntry s.ratingsMatrix r itemId else getEntry s.ratingsMatrix userId r
  let simOf : ℕ → ℚ := fun r => getEntry s.similarityMatrix r target
  let neighbors := nlargest_indices s.neighborhoodSize (rowOf s.similarityMatrix target)
  let kept := neighbors.filter (fun r => decide (ratingOf r ≠ 0))
  let w : ℕ → ℚ :=
    if kept.all (fun r => decide (|simOf r| ≤ iscloseAtol)) then fun _ => 1 else simOf
  let mean := s.means.getD target 0
  if s.useMeans then
    if kept = [] then mean
    else mean +
      (kept.map (fun r => (ratingOf r - s.means.getD r 0) * w r)).sum / (kept.map w).sum
  else
    if kept = [] then 0
    else (kept.map (fun r => ratingOf r * w r)).sum / (kept.map w).sum

/- ### Helper lemmas relating mask filtering to list filtering -/

/-- Boolean-mask filtering of a mapped list agrees with `filter`-then-`map`. -/
theorem maskFilter_map {α β : Type} (l : List α) (p : α → Bool) (f : α → β) :
    maskFilter (l.map p) (l.map f) = (l.filter p).map f := by
  induction l with
  | nil => rfl
  | cons a l ih =>
    by_cases hp : p a
    · simp [maskFilter, List.filter_cons, hp, ih]
    · simp only [Bool.not_eq_true] at hp
      simp [maskFilter, List.filter_cons, hp, ih]

/-- Pointwise operations on two maps of the same list fuse to one map. -/
theorem zipWith_map_same {α β γ δ : Type} (g : β → γ → δ) (f₁ : α → β) (f₂ : α → γ)
    (l : List α) :
    List.zipWith g (l.map f₁) (l.map f₂) = l.map (fun a => g (f₁ a) (f₂ a)) := by
  induction l with
  | nil => rfl
  | cons a l ih => simp [ih]

/-- Testing a predicate on a mapped list tests the composition on the base list. -/
theorem all_map_comp {α β : Type} (l : List α) (f : α → β) (p : β → Bool) :
    (l.map f).all p = l.all (fun a => p (f a)) := by
  induction l with
  | nil => rfl
  | cons a l ih => simp [ih]

/-- Appending one result per element in a `for` loop builds the map of the list. -/
theorem foldl_append_eq_map {α β : Type} (f : α → β) (l : List α) (acc : List β) :
    l.foldl (fun ps t => ps ++ [f t]) acc = acc ++ l.map f := by
  induction l generalizing acc with
  | nil => simp
  | cons a l ih => simp [ih]

/- ### Theorems for claims C2 and C9 -/

/-- Core computation of `_predict` for one request, stated generically over
the neighbor list `L`, the similarity weights `S`, the target ratings `R`, the
neighbor means `M`, the target's own mean, and the `use_means` flag: the
mask-filtered array pipeline of the source equals the filtered-list formula of
the specification. -/
theorem predict_core_eq (L : List ℕ) (R S M : ℕ → ℚ) (mean : ℚ) (um : Bool) :
    (if um = true then
       if (maskFilter ((L.map R).map (fun x => decide (x ≠ 0))) (L.map R)).length = 0 then mean
       else mean + npAverage
         (List.zipWith (fun a b => a - b)
           (maskFilter ((L.map R).map (fun x => decide (x ≠ 0))) (L.map R))
           (maskFilter ((L.map R).map (fun x => decide (x ≠ 0))) (L.map M)))
         (if (maskFilter ((L.map R).map (fun x => decide (x ≠ 0))) (L.map S)).all
              (fun v => decide (|v| ≤ iscloseAtol)) = true
          then (maskFilter ((L.map R).map (fun x => decide (x ≠ 0))) (L.map S)).map (fun _ => 1)
          else maskFilter ((L.map R).map (fun x => decide (x ≠ 0))) (L.map S))
     else
       if (maskFilter ((L.map R).map (fun x => decide (x ≠ 0))) (L.map R)).length = 0 then 0
       else npAverage (maskFilter ((L.map R).map (fun x => decide (x ≠ 0))) (L.map R))
         (if (maskFilter ((L.map R).map (fun x => decide (x ≠ 0))) (L.map S)).all
              (fun v => decide (|v| ≤ iscloseAtol)) = true
          then (maskFilter ((L.map R).map (fun x => decide (x ≠ 0))) (L.map S)).map (fun _ => 1)
          else maskFilter ((L.map R).map (fun x => decide (x ≠ 0))) (L.map S))) =
    (if um = true then
       if L.filter (fun r => decide (R r ≠ 0)) = [] then mean
       else mean +
         ((L.filter (fun r => decide (R r ≠ 0))).map (fun r => (R r - M r) *
           (if (L.filter (fun r => decide (R r ≠ 0))).all
                (fun r => decide (|S r| ≤ iscloseAtol)) = true
            then fun _ => (1 : ℚ) else S) r)).sum /
         ((L.filter (fun r => decide (R r ≠ 0))).map
           (if (L.filter (fun r => decide (R r ≠ 0))).all
                (fun r => decide (|S r| ≤ iscloseAtol)) = true
            then fun _ => (1 : ℚ) else S)).sum
     else
       if L.filter (fun r => decide (R r ≠ 0)) = [] then 0
       else ((L.filter (fun r => decide (R r ≠ 0))).map (fun r => R r *
           (if (L.filter (fun r => decide (R r ≠ 0))).all
                (fun r => decide (|S r| ≤ iscloseAtol)) = true
            then fun _ => (1 : ℚ) else S) r)).sum /
         ((L.filter (fun r => decide (R r ≠ 0))).map
           (if (L.filter (fun r => decide (R r ≠ 0))).all
                (fun r => decide (|S r| ≤ iscloseAtol)) = true
            then fun _ => (1 : ℚ) else S)).sum) := by
  simp only [List.map_map, Function.comp_def, maskFilter_map]
  by_cases hk : L.filter (fun r => decide (R r ≠ 0)) = []
  · have h1 : ((L.filter (fun r => decide (R r ≠ 0))).map R).length = 0 := by
      rw [hk]
      rfl
    cases um <;>
      simp only [Bool.false_eq_true, reduceIte] <;>
      rw [if_pos h1, if_pos hk]
  · have h1 : ¬((L.filter (fun r => decide (R r ≠ 0))).map R).length = 0 := by
      rw [List.length_map, List.length_eq_zero]
      exact hk
    by_cases hall : ((L.filter (fun r => decide (R r ≠ 0))).all
        (fun r => decide (|S r| ≤ iscloseAtol))) = true
    · have hallm : (((L.filter (fun r => decide (R r ≠ 0))).map S).all
          (fun v => decide (|v| ≤ iscloseAtol))) = true := by
        rw [all_map_comp]
        exact hall
      cases um <;>
        simp only [Bool.false_eq_true, reduceIte] <;>
        rw [if_neg h1, if_neg hk] <;>
        simp only [hall, hallm, reduceIte, npAverage, List.map_map, Function.comp_def,
          zipWith_map_same]
    · have hallm : ¬(((L.filter (fun r => decide (R r ≠ 0))).map S).all
          (fun v => decide (|v| ≤ iscloseAtol))) = true := by
        rw [all_map_comp]
        exact hall
      cases um <;>
        simp only [Bool.false_eq_true, reduceIte] <;>
        rw [if_neg h1, if_neg hk] <;>
        simp only [if_neg hall, if_neg hallm, npAverage, List.map_map, Function.comp_def,
          zipWith_map_same]

/-- C2: for every `(user, item)` prediction request, after restricting the
top-N most-similar neighbors to those with a nonzero rating of the target,
(1) if all remaining similarities are within the `np.isclose` tolerance of `0`
the weights are replaced by uniform weight `1`; (2) with `use_means` the
prediction is the target's own mean plus the similarity-weighted average of
(neighbor rating minus neighbor mean), and the bare mean when no neighbors
remain; (3) without `use_means` it is the similarity-weighted average of raw
neighbor ratings, and `0` when no neighbors remain — i.e. `_predict` agrees
with `predictSpec`, the formula-level restatement of the claim. -/
theorem C2_knn_predict_formula (s : KNNState) (userId itemId : ℕ) :
    predictOne s userId itemId = predictSpec s userId itemId := by
  rw [predictOne, predictSpec]
  cases hub : s.userBased <;>
    simp only [hub, Bool.false_eq_true, Bool.true_eq_false, if_true, if_false, ite_true,
      ite_false, reduceIte]
  · exact predict_core_eq _ _ _ _ _ _
  · exact predict_core_eq _ _ _ _ _ _

/-- C9: with the recommender state fixed, `_predict` on a whole batch of
(user, item, context) triples returns, position by position and in the same
order, exactly the values obtained by calling `_predict` separately on each
single-element batch. -/
theorem C9_predict_batch_singles (s : KNNState) (reqs : List (ℕ × ℕ × List ℚ)) :
    predictBatch s reqs = (reqs.map (fun r => predictBatch s [r])).flatten := by
  have hmap : ∀ (l : List (ℕ × ℕ × List ℚ)),
      (l.map (fun r => [predictOne s r.1 r.2.1])).flatten = l.map (fun r => predictOne s r.1 r.2.1) := by
    intro l
    induction l with
    | nil => rfl
    | cons a l ih => simp [ih]
  simp only [predictBatch, foldl_append_eq_map, List.nil_append, List.foldl_cons,
    List.foldl_nil, hmap]

/- ### recommender.py: PredictRecommender -/

/-- Default-on-missing access of a `collections.defaultdict(set)` /
`defaultdict(list)` modelled as an association list: a missing key reads as
the empty collection. -/
def ddGet {α β : Type} [DecidableEq α] (d : List (α × List β)) (k : α) : List β :=
  (alookup k d).getD []

/-- State kept by `PredictRecommender`: `_users` and `_items` are
insertion-ordered dicts from external id to feature vector, `_ratings` is the
rating store keyed by (user id, item id) holding the latest scalar rating,
`_rating_contexts` is the append-only per-pair context history, and
`_user_items` / `_item_users` are the per-user and per-item rated-id sets. -/
structure PRState where
  users : List (ℤ × List ℚ)
  items : List (ℤ × List ℚ)
  ratings : List ((ℤ × ℤ) × ℚ)
  ratingContexts : List ((ℤ × ℤ) × List (List ℚ))
  userItems : List (ℤ × List ℤ)
  itemUsers : List (ℤ × List ℤ)

/-- The state created by `PredictRecommender.__init__` / rebuilt at the top of
`reset`: every store empty. -/
def emptyPR : PRState := ⟨[], [], [], [], [], []⟩

/-- One iteration of the ratings loop of `PredictRecommender.update` after its
two asserts have passed, in source order: add the item to
`_user_items[user_id]`, add the user to `_item_users[item_id]`, append the
context to `_rating_contexts[user_id, item_id]`, and write the scalar rating
into the store. -/
def applyRating (s : PRState) (u i : ℤ) (r : ℚ) (c : List ℚ) : PRState :=
  { s with
    userItems := upsert u (setAdd i (ddGet s.userItems u)) s.userItems,
    itemUsers := upsert i (setAdd u (ddGet s.itemUsers i)) s.itemUsers,
    ratingContexts := upsert (u, i) ((alookup (u, i) s.ratingContexts).getD [] ++ [c])
      s.ratingContexts,
    ratings := upsert (u, i) r s.ratings }

/-- The `for (user_id, item_id), (rating, context) in ratings.items()` loop of
`PredictRecommender.update`.  The two `assert`s are modelled as the boolean
success flag: `false` means the call raised `AssertionError` at the current
pair, leaving the mutations of the earlier iterations in place (Python
mutates in place, so a failed call keeps the state reached so far). -/
def updateLoop : PRState → List ((ℤ × ℤ) × (ℚ × List ℚ)) → PRState × Bool
  | s, [] => (s, true)
  | s, ((u, i), (r, c)) :: rest =>
    if (alookup u s.users).isSome && (alookup i s.items).isSome then
      updateLoop (applyRating s u i r c) rest
    else (s, false)

/-- Embedding of `PredictRecommender.update(users, items, ratings)`:
merge the optional `users` and `items` dicts (`dict.update`, overwrite
semantics), then — when `ratings` is given — perform the bulk
`self._ratings.update(ratings)` write of the batch into the rating store
(consistent with the dict the constructor places in `self._ratings`; the
embedding records the scalar component per pair, which the per-pair loop
write `self._ratings[user_id, item_id] = rating` makes definitive for every
pair of a completed call), and finally run the checked per-rating loop.
The returned flag is `true` iff no assert fired. -/
def updateP (s : PRState) (users? items? : Option (List (ℤ × List ℚ)))
    (ratings? : Option (List ((ℤ × ℤ) × (ℚ × List ℚ)))) : PRState × Bool :=
  let s1 := match users? with
    | none => s
    | some us => { s with users := dictUpdate s.users us }
  let s2 := match items? with
    | none => s1
    | some its => { s1 with items := dictUpdate s1.items its }
  match ratings? with
  | none => (s2, true)
  | some rs =>
    let s3 := { s2 with ratings := rs.foldl (fun d kv => upsert kv.1 kv.2.1 d) s2.ratings }
    updateLoop s3 rs

/-- Embedding of `PredictRecommender.reset(users, items, ratings)`: rebuild
every store empty, then delegate to `update` with the supplied initial data. -/
def resetP (users? items? : Option (List (ℤ × List ℚ)))
    (ratings? : Option (List ((ℤ × ℤ) × (ℚ × List ℚ)))) : PRState × Bool :=
  updateP emptyPR users? items? ratings?

/- ### recommender.py: PredictRecommender.recommend -/

/-- Candidate items of one user inside `recommend`:
`[j for j in self._items if j not in self._user_items[user_id]]` — all known
item ids, in dict order, that the user has not rated. -/
def candidateItems (s : PRState) (u : ℤ) : List ℤ :=
  (s.items.map Prod.fst).filter (fun j => decide (j ∉ ddGet s.userItems u))

/-- Embedding of `np.argsort(predictions)`: the indices that sort the array
in ascending value order.  NumPy's default quicksort fixes an arbitrary
permutation among tied values; the embedding fixes the stable one (the design
leaves the tie order to the implementation). -/
def argsortQ (xs : List ℚ) : List ℕ :=
  (xs.enum.insertionSort (fun a b => a.2 ≤ b.2)).map Prod.fst

/-- Python slice `xs[-k:]`: the last `k` elements, all of them when `k`
exceeds the length, and the whole list for `k = 0` (Python's `-0`). -/
def lastSlice {α : Type} (k : ℕ) (xs : List α) : List α :=
  if k = 0 then xs else xs.drop (xs.length - k)

/-- Splitting of the flat prediction array back into per-user segments:
`np.split(all_predictions, itertools.accumulate(item_lens))` produces one
piece per length (the trailing empty piece numpy appends is discarded by the
`zip` with `all_item_ids` in the source). -/
def splitSegs : List ℕ → List ℚ → List (List ℚ)
  | [], _ => []
  | n :: ns, xs => xs.take n :: splitSegs ns (xs.drop n)

/-- Embedding of `PredictRecommender.recommend(user_contexts, k)`.  The
abstract `self.predict` is a parameter `f`; per its contract
(`predictions[i]` is the prediction of the i-th triple) a batch call is the
pointwise map of `f` over the request triples.  The body follows the source:
build the flattened request (one triple per unrated item per user, user order
preserved), predict once, split back by per-user counts, and per user select
`np.argsort(predictions)[-k:]`, pairing `item_ids[best]` with
`predictions[best]`.  (The body's `user_contexts` is the parameter spelled
`users_contexts` in the source's signature — its docstring names it
`user_contexts`.)  Out-of-range `getD` defaults are never reached when every
user has at least `k` candidates. -/
def recommendP (s : PRState) (f : ℤ → ℤ → List ℚ → ℚ) (ucs : List (ℤ × List ℚ)) (k : ℕ) :
    List (List ℤ) × List (List ℚ) :=
  let allItemIds := ucs.map (fun p => candidateItems s p.1)
  let ratingsToPredict :=
    (ucs.map (fun p => (candidateItems s p.1).map (fun j => (p.1, j, p.2)))).flatten
  let allPredictions := ratingsToPredict.map (fun t => f t.1 t.2.1 t.2.2)
  let split := splitSegs (allItemIds.map List.length) allPredictions
  let rows := (allItemIds.zip split).map (fun q =>
    let best := lastSlice k (argsortQ q.2)
    (best.map (fun b => q.1.getD b 0), best.map (fun b => q.2.getD b 0)))
  (rows.map Prod.fst, rows.map Prod.snd)

/- ### Association-list lemmas -/

/-- Lookup after upsert: the written key reads back the new value, the others
are untouched. -/
theorem alookup_upsert {α β : Type} [DecidableEq α] (k k' : α) (v : β) (d : List (α × β)) :
    alookup k' (upsert k v d) = if k' = k then some v else alookup k' d := by
  induction d with
  | nil =>
    by_cases h : k' = k <;> simp [upsert, alookup, h]
  | cons hd tl ih =>
    obtain ⟨kh, vh⟩ := hd
    by_cases hkh : k = kh <;> by_cases h : k' = kh
    · have hk : k' = k := by rw [h, hkh]
      simp [upsert, alookup, hkh, h, hk]
    · have hk : ¬k' = k := fun q => h (q.trans hkh)
      simp [upsert, alookup, hkh, h, hk]
    · have hk : ¬k' = k := fun q => hkh (q.symm.trans h)
      have hk2 : ¬kh = k := fun q => hkh q.symm
      simp [upsert, alookup, hkh, h, hk, hk2]
    · simp [upsert, alookup, hkh, h, ih]

/-- Membership after a Python `set.add`. -/
theorem mem_setAdd {α : Type} [DecidableEq α] (x y : α) (s : List α) :
    x ∈ setAdd y s ↔ x = y ∨ x ∈ s := by
  by_cases hy : y ∈ s
  · simp only [setAdd, if_pos hy]
    constructor
    · exact Or.inr
    · rintro (rfl | hx)
      · exact hy
      · exact hx
  · simp [setAdd, if_neg hy, List.mem_append, or_comm]

/-- Defaultdict access after upsert. -/
theorem ddGet_upsert {α β : Type} [DecidableEq α] (d : List (α × List β)) (k k' : α)
    (v : List β) :
    ddGet (upsert k v d) k' = if k' = k then v else ddGet d k' := by
  rw [ddGet, alookup_upsert]
  by_cases h : k' = k <;> simp [h, ddGet]

/-- Domain of the rating store after the bulk `dict.update` write: exactly the
old domain plus the keys of the batch. -/
theorem bulk_isSome (rs : List ((ℤ × ℤ) × (ℚ × List ℚ))) :
    ∀ (d : List ((ℤ × ℤ) × ℚ)) (key : ℤ × ℤ),
    (alookup key (rs.foldl (fun d kv => upsert kv.1 kv.2.1 d) d)).isSome = true ↔
      (alookup key d).isSome = true ∨ key ∈ rs.map Prod.fst := by
  induction rs with
  | nil => simp
  | cons kv rest ih =>
    intro d key
    simp only [List.foldl_cons, List.map_cons, List.mem_cons]
    rw [ih, alookup_upsert]
    by_cases hk : key = kv.1 <;> simp [hk, or_comm, or_left_comm]

/- ### The rated-set symmetry invariant -/

/-- Rated-set symmetry: an item is in a user's rated set iff the user is in
the item's rater set, and both hold exactly when the pair has a rating in the
store. -/
def RatedSym (s : PRState) : Prop :=
  ∀ u i : ℤ, (i ∈ ddGet s.userItems u ↔ u ∈ ddGet s.itemUsers i) ∧
    (i ∈ ddGet s.userItems u ↔ (alookup (u, i) s.ratings).isSome = true)

/-- Mid-loop variant of the invariant: the pairs of `pend` are already in the
rating store (the bulk write precedes the loop) but not yet in the rated
sets. -/
def RatedSymPend (s : PRState) (pend : List (ℤ × ℤ)) : Prop :=
  ∀ u i : ℤ, (i ∈ ddGet s.userItems u ↔ u ∈ ddGet s.itemUsers i) ∧
    ((i ∈ ddGet s.userItems u ∨ (u, i) ∈ pend) ↔ (alookup (u, i) s.ratings).isSome = true)

/-- One loop iteration moves its pair from the pending list into the rated
sets while preserving the mid-loop invariant. -/
theorem ratedSymPend_step (s : PRState) (u i : ℤ) (r : ℚ) (c : List ℚ)
    (pend : List (ℤ × ℤ)) (hs : RatedSymPend s ((u, i) :: pend)) :
    RatedSymPend (applyRating s u i r c) pend := by
  intro u' i'
  have hUI : ddGet (applyRating s u i r c).userItems u' =
      if u' = u then setAdd i (ddGet s.userItems u) else ddGet s.userItems u' :=
    ddGet_upsert _ _ _ _
  have hIU : ddGet (applyRating s u i r c).itemUsers i' =
      if i' = i then setAdd u (ddGet s.itemUsers i) else ddGet s.itemUsers i' :=
    ddGet_upsert _ _ _ _
  have hR : alookup (u', i') (applyRating s u i r c).ratings =
      if (u', i') = (u, i) then some r else alookup (u', i') s.ratings :=
    alookup_upsert _ _ _ _
  by_cases hu : u' = u <;> by_cases hi : i' = i
  · subst hu; subst hi
    rw [hUI, hIU, hR, if_pos rfl, if_pos rfl, if_pos rfl]
    simp [mem_setAdd]
  · subst hu
    have hpair : ¬((u', i') = (u', i)) := by
      intro hq
      exact hi (congrArg Prod.snd hq)
    rw [hUI, hIU, hR, if_pos rfl, if_neg hi, if_neg hpair]
    have h1 := (hs u' i').1
    have h2 := (hs u' i').2
    rw [mem_setAdd]
    constructor
    · constructor
      · rintro (rfl | hmem)
        · exact absurd rfl hi
        · exact h1.mp hmem
      · intro hmem
        exact Or.inr (h1.mpr hmem)
    · rw [List.mem_cons] at h2
      constructor
      · rintro ((rfl | hmem) | hpend)
        · exact absurd rfl hi
        · exact h2.mp (Or.inl hmem)
        · exact h2.mp (Or.inr (Or.inr hpend))
      · intro hsome
        rcases h2.mpr hsome with hmem | (heq | hpend)
        · exact Or.inl (Or.inr hmem)
        · exact absurd heq hpair
        · exact Or.inr hpend
  · subst hi
    have hpair : ¬((u', i') = (u, i')) := by
      intro hq
      exact hu (congrArg Prod.fst hq)
    rw [hUI, hIU, hR, if_neg hu, if_pos rfl, if_neg hpair]
    have h1 := (hs u' i').1
    have h2 := (hs u' i').2
    rw [mem_setAdd]
    constructor
    · constructor
      · intro hmem
        exact Or.inr (h1.mp hmem)
      · rintro (rfl | hmem)
        · exact absurd rfl hu
        · exact h1.mpr hmem
    · rw [List.mem_cons] at h2
      constructor
      · rintro (hmem | hpend)
        · exact h2.mp (Or.inl hmem)
        · exact h2.mp (Or.inr (Or.inr hpend))
      · intro hsome
        rcases h2.mpr hsome with hmem | (heq | hpend)
        · exact Or.inl hmem
        · exact absurd heq hpair
        · exact Or.inr hpend
  · have hpair : ¬((u', i') = (u, i)) := by
      intro hq
      exact hu (congrArg Prod.fst hq)
    rw [hUI, hIU, hR, if_neg hu, if_neg hi, if_neg hpair]
    have h1 := (hs u' i').1
    have h2 := (hs u' i').2
    rw [List.mem_cons] at h2
    refine ⟨h1, ?_⟩
    constructor
    · rintro (hmem | hpend)
      · exact h2.mp (Or.inl hmem)
      · exact h2.mp (Or.inr (Or.inr hpend))
    · intro hsome
      rcases h2.mpr hsome with hmem | (heq | hpend)
      · exact Or.inl hmem
      · exact absurd heq hpair
      · exact Or.inr hpend

/-- A successful run of the ratings loop turns the mid-loop invariant into
full rated-set symmetry. -/
theorem updateLoop_sym (rs : List ((ℤ × ℤ) × (ℚ × List ℚ))) :
    ∀ s : PRState, RatedSymPend s (rs.map Prod.fst) →
      (updateLoop s rs).2 = true → RatedSym (updateLoop s rs).1 := by
  induction rs with
  | nil =>
    intro s hs _
    intro u i
    have h := hs u i
    simpa using h
  | cons hd rest ih =>
    intro s hs hok
    obtain ⟨⟨u, i⟩, r, c⟩ := hd
    simp only [updateLoop] at hok ⊢
    by_cases hg : ((alookup u s.users).isSome && (alookup i s.items).isSome) = true
    · rw [if_pos hg] at hok ⊢
      exact ih _ (ratedSymPend_step s u i r c _ hs) hok
    · rw [if_neg hg] at hok
      exact absurd hok (by simp)

/- ### Theorems for claims C4 and C7 -/

/-- C4: rated-set symmetry.  Both for a direct call to `update` from any state
already satisfying the invariant and for the update performed by `reset`
(which starts from the empty stores, where the invariant is trivial), a
completed call leaves a state in which, for all `u` and `i`, item `i` is in
`user_items[u]` iff user `u` is in `item_users[i]`, and both hold exactly when
the pair `(u, i)` has a rating in the store.  (A call aborted by an assert is
excluded: the source mutates in place, and the specification itself notes a
mid-update failure can leave inconsistent state.) -/
theorem C4_rated_set_symmetry :
    (∀ (s : PRState) (us its : Option (List (ℤ × List ℚ)))
       (rs? : Option (List ((ℤ × ℤ) × (ℚ × List ℚ)))),
       RatedSym s → (updateP s us its rs?).2 = true → RatedSym (updateP s us its rs?).1) ∧
    (∀ (us its : Option (List (ℤ × List ℚ)))
       (rs? : Option (List ((ℤ × ℤ) × (ℚ × List ℚ)))),
       (resetP us its rs?).2 = true → RatedSym (resetP us its rs?).1) := by
  have hupd : ∀ (s : PRState) (us its : Option (List (ℤ × List ℚ)))
      (rs? : Option (List ((ℤ × ℤ) × (ℚ × List ℚ)))),
      RatedSym s → (updateP s us its rs?).2 = true → RatedSym (updateP s us its rs?).1 := by
    intro s us its rs? hInv hok
    cases rs? with
    | none =>
      cases us <;> cases its <;> exact hInv
    | some rs =>
      have hmid : RatedSymPend
          { (match its with
              | none => (match us with
                | none => s
                | some u => { s with users := dictUpdate s.users u })
              | some it => { (match us with
                | none => s
                | some u => { s with users := dictUpdate s.users u }) with
                  items := dictUpdate (match us with
                    | none => s
                    | some u => { s with users := dictUpdate s.users u }).items it }) with
            ratings := rs.foldl (fun d kv => upsert kv.1 kv.2.1 d)
              (match its with
                | none => (match us with
                  | none => s
                  | some u => { s with users := dictUpdate s.users u })
                | some it => { (match us with
                  | none => s
                  | some u => { s with users := dictUpdate s.users u }) with
                    items := dictUpdate (match us with
                      | none => s
                      | some u => { s with users := dictUpdate s.users u }).items it }).ratings }
          (rs.map Prod.fst) := by
        intro u i
        have hbase := hInv u i
        have hUI : ∀ t : PRState, True := fun _ => trivial
        cases us <;> cases its <;>
          · refine ⟨hbase.1, ?_⟩
            rw [bulk_isSome]
            constructor
            · rintro (hmem | hpend)
              · exact Or.inl (hbase.2.mp hmem)
              · exact Or.inr hpend
            · rintro (hsome | hpend)
              · exact Or.inl (hbase.2.mpr hsome)
              · exact Or.inr hpend
      cases us <;> cases its <;> exact updateLoop_sym rs _ hmid ‹_›
  refine ⟨hupd, ?_⟩
  intro us its rs? hok
  have hempty : RatedSym emptyPR := by
    intro u i
    simp [ddGet, alookup, emptyPR]
  exact hupd emptyPR us its rs? hempty hok

/-- Witness for C4: from the empty state, updating with user 1, item 2 and
the single rating (1, 2) succeeds and yields a symmetric state; the same
holds for the corresponding reset. -/
theorem C4_rated_set_symmetry_witness :
    RatedSym (updateP emptyPR (some [(1, [])]) (some [(2, [])])
      (some [((1, 2), (5, []))])).1 ∧
    RatedSym (resetP (some [(1, [])]) (some [(2, [])])
      (some [((1, 2), (5, []))])).1 :=
  ⟨C4_rated_set_symmetry.1 emptyPR (some [(1, [])]) (some [(2, [])])
      (some [((1, 2), (5, []))])
      (by intro u i; simp [ddGet, alookup, emptyPR]) (by rfl),
   C4_rated_set_symmetry.2 (some [(1, [])]) (some [(2, [])])
      (some [((1, 2), (5, []))]) (by rfl)⟩

/-- The ratings loop completes iff every rating pair references a known user
and a known item; the loop itself never changes the `users`/`items` dicts. -/
theorem updateLoop_ok (rs : List ((ℤ × ℤ) × (ℚ × List ℚ))) :
    ∀ s : PRState, (updateLoop s rs).2 = true ↔
      ∀ p ∈ rs, (alookup p.1.1 s.users).isSome = true ∧
        (alookup p.1.2 s.items).isSome = true := by
  induction rs with
  | nil =>
    intro s
    simp [updateLoop]
  | cons hd rest ih =>
    intro s
    obtain ⟨⟨u, i⟩, r, c⟩ := hd
    simp only [updateLoop]
    by_cases hg : ((alookup u s.users).isSome && (alookup i s.items).isSome) = true
    · rw [if_pos hg, ih]
      have husers : (applyRating s u i r c).users = s.users := rfl
      have hitems : (applyRating s u i r c).items = s.items := rfl
      rw [husers, hitems]
      rw [Bool.and_eq_true] at hg
      simp only [List.mem_cons, forall_eq_or_imp]
      constructor
      · intro h
        exact ⟨⟨hg.1, hg.2⟩, h⟩
      · intro h
        exact h.2
    · rw [if_neg hg]
      rw [Bool.and_eq_true] at hg
      simp only [List.mem_cons, forall_eq_or_imp]
      constructor
      · intro h
        cases h
      · intro h
        exact absurd ⟨h.1.1, h.1.2⟩ hg

/-- C7: a call to `update` whose ratings reference, after the `users` and
`items` dict merges, an unknown user or item id fails fatally (an assert
raises, modelled by the `false` flag) rather than silently recovering, and a
call whose rating ids are all known completes. -/
theorem C7_update_asserts_known_ids (s : PRState) (us its : Option (List (ℤ × List ℚ)))
    (rs : List ((ℤ × ℤ) × (ℚ × List ℚ))) :
    (updateP s us its (some rs)).2 = true ↔
      ∀ p ∈ rs, (alookup p.1.1 (dictUpdate s.users (us.getD []))).isSome = true ∧
        (alookup p.1.2 (dictUpdate s.items (its.getD []))).isSome = true := by
  have hloop := updateLoop_ok rs
  cases us <;> cases its <;>
    · rw [show (updateP s _ _ (some rs)) = updateLoop _ rs from rfl, hloop]
      exact Iff.rfl

/- ### recommender.py: RatingMatrix -/

/-- State of a `RatingMatrix`: the two outer-id-to-inner-index dicts, the two
inner-index-to-outer-id lists, the sparse `dok` store keyed by inner indices,
and the current shape maintained by the `resize` calls. -/
structure RMState where
  outerToInnerUid : List (ℤ × ℕ)
  innerToOuterUid : List ℤ
  outerToInnerIid : List (ℤ × ℕ)
  innerToOuterIid : List ℤ
  rows : ℕ
  cols : ℕ
  vals : List ((ℕ × ℕ) × ℚ)

/-- The empty `RatingMatrix` built by `RatingMatrix.__init__`: a `(0, 0)`
sparse matrix and empty id maps. -/
def rmEmpty : RMState := ⟨[], [], [], [], 0, 0, []⟩

/-- Embedding of `RatingMatrix.__setitem__(index, value)` for a two-element
integer index (ids are modelled as integers, so the `isinstance(index[0],
int)` guards hold; the wildcard-slice path is outside every claim).  A user id
not yet in `_outer_to_inner_uid` is bound to the current row count
`_ratings.shape[0]`, appended to `_inner_to_outer_uid`, and the matrix gains a
row; then symmetrically for the item id with the column count; finally the
value is written at the resolved inner position.  (The source's undefined
locals `user_id`/`item_id` in this method are its `index[0]`/`index[1]`, and
`isintance`/`self._rating` stand for `isinstance`/`self._ratings`, as the
surrounding lines dictate.)  `registerUser` is the first `if` statement of
`__setitem__`. -/
def registerUser (s : RMState) (u : ℤ) : RMState :=
  if (alookup u s.outerToInnerUid).isSome then s else
    { s with outerToInnerUid := s.outerToInnerUid ++ [(u, s.rows)],
             innerToOuterUid := s.innerToOuterUid ++ [u],
             rows := s.rows + 1 }

/-- The symmetric `if` statement of `__setitem__` for a new item id. -/
def registerItem (s : RMState) (i : ℤ) : RMState :=
  if (alookup i s.outerToInnerIid).isSome then s else
    { s with outerToInnerIid := s.outerToInnerIid ++ [(i, s.cols)],
             innerToOuterIid := s.innerToOuterIid ++ [i],
             cols := s.cols + 1 }

/-- The full `__setitem__`: register a new user, register a new item, then
resolve the index through `_outer_to_inner_index` and write into the `dok`
store. -/
def setItem (s : RMState) (idx : ℤ × ℤ) (v : ℚ) : RMState :=
  let s2 := registerItem (registerUser s idx.1) idx.2
  match alookup idx.1 s2.outerToInnerUid, alookup idx.2 s2.outerToInnerIid with
  | some iu, some ii => { s2 with vals := upsert (iu, ii) v s2.vals }
  | _, _ => s2

/-- Embedding of `RatingMatrix.user_ordering()` exactly as written: the method
returns `tuple(self._inner_to_outer_iid)` — the item list — although its
docstring promises the user id of the user at each row. -/
def user_ordering (s : RMState) : List ℤ :=
  s.innerToOuterIid

/-- Embedding of `RatingMatrix.item_ordering()`:
`tuple(self._inner_to_outer_iid)`, the item id at each column. -/
def item_ordering (s : RMState) : List ℤ :=
  s.innerToOuterIid

/-- A sequence of `set` operations applied to a `RatingMatrix`. -/
def applyOps (s : RMState) (ops : List ((ℤ × ℤ) × ℚ)) : RMState :=
  ops.foldl (fun t p => setItem t p.1 p.2) s

/- ### RatingMatrix lemmas -/

/-- A key found in the left part of an association list is unaffected by an
append on the right. -/
theorem alookup_append_left {α β : Type} [DecidableEq α] (k : α) (d e : List (α × β)) (v : β)
    (h : alookup k d = some v) : alookup k (d ++ e) = some v := by
  induction d with
  | nil => cases h
  | cons hd tl ih =>
    obtain ⟨kh, vh⟩ := hd
    by_cases hk : k = kh
    · simpa [alookup, hk] using h
    · rw [List.cons_append, alookup, if_neg hk]
      rw [alookup, if_neg hk] at h
      exact ih h

/-- A key absent from the left part of an association list is looked up in the
right part. -/
theorem alookup_append_right {α β : Type} [DecidableEq α] (k : α) (d e : List (α × β))
    (h : alookup k d = none) : alookup k (d ++ e) = alookup k e := by
  induction d with
  | nil => rfl
  | cons hd tl ih =>
    obtain ⟨kh, vh⟩ := hd
    by_cases hk : k = kh
    · rw [alookup, if_pos hk] at h
      cases h
    · rw [List.cons_append, alookup, if_neg hk]
      rw [alookup, if_neg hk] at h
      exact ih h

/-- Registering an item never touches the user-axis bookkeeping. -/
theorem registerItem_userFields (s : RMState) (i : ℤ) :
    (registerItem s i).outerToInnerUid = s.outerToInnerUid ∧
    (registerItem s i).innerToOuterUid = s.innerToOuterUid ∧
    (registerItem s i).rows = s.rows := by
  unfold registerItem
  split <;> exact ⟨rfl, rfl, rfl⟩

/-- Registering a user never touches the item-axis bookkeeping. -/
theorem registerUser_itemFields (s : RMState) (u : ℤ) :
    (registerUser s u).outerToInnerIid = s.outerToInnerIid ∧
    (registerUser s u).innerToOuterIid = s.innerToOuterIid ∧
    (registerUser s u).cols = s.cols := by
  unfold registerUser
  split <;> exact ⟨rfl, rfl, rfl⟩

/-- The final `dok` write of `__setitem__` leaves every id map and the shape
unchanged. -/
theorem setItem_ids (s : RMState) (idx : ℤ × ℤ) (v : ℚ) :
    (setItem s idx v).outerToInnerUid =
      (registerItem (registerUser s idx.1) idx.2).outerToInnerUid ∧
    (setItem s idx v).innerToOuterUid =
      (registerItem (registerUser s idx.1) idx.2).innerToOuterUid ∧
    (setItem s idx v).outerToInnerIid =
      (registerItem (registerUser s idx.1) idx.2).outerToInnerIid ∧
    (setItem s idx v).innerToOuterIid =
      (registerItem (registerUser s idx.1) idx.2).innerToOuterIid ∧
    (setItem s idx v).rows = (registerItem (registerUser s idx.1) idx.2).rows ∧
    (setItem s idx v).cols = (registerItem (registerUser s idx.1) idx.2).cols := by
  simp only [setItem]
  cases alookup idx.1 (registerItem (registerUser s idx.1) idx.2).outerToInnerUid <;>
    cases alookup idx.2 (registerItem (registerUser s idx.1) idx.2).outerToInnerIid <;>
      exact ⟨rfl, rfl, rfl, rfl, rfl, rfl⟩

/-- Closed form of the user-axis id maps after a `set`. -/
theorem setItem_uid_form (s : RMState) (idx : ℤ × ℤ) (v : ℚ) :
    (setItem s idx v).outerToInnerUid =
      (if (alookup idx.1 s.outerToInnerUid).isSome then s.outerToInnerUid
       else s.outerToInnerUid ++ [(idx.1, s.rows)]) ∧
    (setItem s idx v).innerToOuterUid =
      (if (alookup idx.1 s.outerToInnerUid).isSome then s.innerToOuterUid
       else s.innerToOuterUid ++ [idx.1]) ∧
    (setItem s idx v).rows =
      (if (alookup idx.1 s.outerToInnerUid).isSome then s.rows else s.rows + 1) := by
  obtain ⟨h1, h2, h3⟩ := registerItem_userFields (registerUser s idx.1) idx.2
  obtain ⟨g1, g2, g3, g4, g5, g6⟩ := setItem_ids s idx v
  rw [g1, g2, g5, h1, h2, h3]
  unfold registerUser
  by_cases h : (alookup idx.1 s.outerToInnerUid).isSome = true
  · simp [if_pos h]
  · simp [if_neg h]

/-- Closed form of the item-axis id maps after a `set`. -/
theorem setItem_iid_form (s : RMState) (idx : ℤ × ℤ) (v : ℚ) :
    (setItem s idx v).outerToInnerIid =
      (if (alookup idx.2 s.outerToInnerIid).isSome then s.outerToInnerIid
       else s.outerToInnerIid ++ [(idx.2, s.cols)]) ∧
    (setItem s idx v).innerToOuterIid =
      (if (alookup idx.2 s.outerToInnerIid).isSome then s.innerToOuterIid
       else s.innerToOuterIid ++ [idx.2]) ∧
    (setItem s idx v).cols =
      (if (alookup idx.2 s.outerToInnerIid).isSome then s.cols else s.cols + 1) := by
  obtain ⟨h1, h2, h3⟩ := registerUser_itemFields s idx.1
  obtain ⟨g1, g2, g3, g4, g5, g6⟩ := setItem_ids s idx v
  rw [g3, g4, g6]
  unfold registerItem
  rw [h1]
  by_cases h : (alookup idx.2 s.outerToInnerIid).isSome = true
  · simp [if_pos h, h1, h2, h3]
  · simp [if_neg h, h1, h2, h3]

/-- A `set` never changes an existing user id assignment. -/
theorem setItem_keeps_uid (s : RMState) (idx : ℤ × ℤ) (v : ℚ) (u : ℤ) (j : ℕ)
    (h : alookup u s.outerToInnerUid = some j) :
    alookup u (setItem s idx v).outerToInnerUid = some j := by
  rw [(setItem_uid_form s idx v).1]
  by_cases hreg : (alookup idx.1 s.outerToInnerUid).isSome = true
  · rw [if_pos hreg]
    exact h
  · rw [if_neg hreg]
    exact alookup_append_left u _ _ j h

/-- A `set` never changes an existing item id assignment. -/
theorem setItem_keeps_iid (s : RMState) (idx : ℤ × ℤ) (v : ℚ) (i : ℤ) (j : ℕ)
    (h : alookup i s.outerToInnerIid = some j) :
    alookup i (setItem s idx v).outerToInnerIid = some j := by
  rw [(setItem_iid_form s idx v).1]
  by_cases hreg : (alookup idx.2 s.outerToInnerIid).isSome = true
  · rw [if_pos hreg]
    exact h
  · rw [if_neg hreg]
    exact alookup_append_left i _ _ j h

/-- No sequence of `set` operations changes an existing id assignment. -/
theorem applyOps_keeps_ids (ops : List ((ℤ × ℤ) × ℚ)) :
    ∀ (s : RMState) (u i : ℤ) (j j' : ℕ),
    (alookup u s.outerToInnerUid = some j →
      alookup u (applyOps s ops).outerToInnerUid = some j) ∧
    (alookup i s.outerToInnerIid = some j' →
      alookup i (applyOps s ops).outerToInnerIid = some j') := by
  induction ops with
  | nil => exact fun s u i j j' => ⟨id, id⟩
  | cons op rest ih =>
    intro s u i j j'
    constructor
    · intro h
      exact (ih (setItem s op.1 op.2) u i j j').1 (setItem_keeps_uid s op.1 op.2 u j h)
    · intro h
      exact (ih (setItem s op.1 op.2) u i j j').2 (setItem_keeps_iid s op.1 op.2 i j' h)

/-- The inner-to-outer lists only ever grow by appending. -/
theorem applyOps_grows (ops : List ((ℤ × ℤ) × ℚ)) :
    ∀ s : RMState,
    (∃ t, (applyOps s ops).innerToOuterUid = s.innerToOuterUid ++ t) ∧
    (∃ t, (applyOps s ops).innerToOuterIid = s.innerToOuterIid ++ t) := by
  induction ops with
  | nil => exact fun s => ⟨⟨[], by simp [applyOps]⟩, ⟨[], by simp [applyOps]⟩⟩
  | cons op rest ih =>
    intro s
    obtain ⟨⟨t1, ht1⟩, ⟨t2, ht2⟩⟩ := ih (setItem s op.1 op.2)
    constructor
    · rw [show applyOps s (op :: rest) = applyOps (setItem s op.1 op.2) rest from rfl]
      rw [(setItem_uid_form s op.1 op.2).2.1] at ht1
      by_cases hreg : (alookup op.1.1 s.outerToInnerUid).isSome = true
      · rw [if_pos hreg] at ht1
        exact ⟨t1, ht1⟩
      · rw [if_neg hreg] at ht1
        exact ⟨[op.1.1] ++ t1, by rw [ht1, List.append_assoc]⟩
    · rw [show applyOps s (op :: rest) = applyOps (setItem s op.1 op.2) rest from rfl]
      rw [(setItem_iid_form s op.1 op.2).2.1] at ht2
      by_cases hreg : (alookup op.1.2 s.outerToInnerIid).isSome = true
      · rw [if_pos hreg] at ht2
        exact ⟨t2, ht2⟩
      · rw [if_neg hreg] at ht2
        exact ⟨[op.1.2] ++ t2, by rw [ht2, List.append_assoc]⟩

/-- Shape invariant of a `RatingMatrix`: the matrix has exactly one row per
registered user and one column per registered item. -/
def RMShapeInv (s : RMState) : Prop :=
  s.rows = s.innerToOuterUid.length ∧ s.cols = s.innerToOuterIid.length

/-- Every state reached from the empty matrix satisfies the shape invariant. -/
theorem applyOps_shapeInv (ops : List ((ℤ × ℤ) × ℚ)) :
    ∀ s : RMState, RMShapeInv s → RMShapeInv (applyOps s ops) := by
  induction ops with
  | nil => exact fun s h => h
  | cons op rest ih =>
    intro s hs
    refine ih (setItem s op.1 op.2) ⟨?_, ?_⟩
    · rw [(setItem_uid_form s op.1 op.2).2.2, (setItem_uid_form s op.1 op.2).2.1]
      by_cases hreg : (alookup op.1.1 s.outerToInnerUid).isSome = true
      · rw [if_pos hreg, if_pos hreg]
        exact hs.1
      · rw [if_neg hreg, if_neg hreg, List.length_append, hs.1]
        rfl
    · rw [(setItem_iid_form s op.1 op.2).2.2, (setItem_iid_form s op.1 op.2).2.1]
      by_cases hreg : (alookup op.1.2 s.outerToInnerIid).isSome = true
      · rw [if_pos hreg, if_pos hreg]
        exact hs.2
      · rw [if_neg hreg, if_neg hreg, List.length_append, hs.2]
        rfl

/- ### Theorems for claims C6 and C5 -/

/-- C6: over any sequence of `set` operations from the empty matrix, a
previously unseen user or item id is assigned the next available internal
index — the current length of its axis's inner-to-outer list, i.e. it is
appended at the end — and an internal index, once assigned, never changes
under any further operations; growth only appends, never re-indexing or
reordering existing entries. -/
theorem C6_id_assignment_monotone (ops more : List ((ℤ × ℤ) × ℚ)) (idx : ℤ × ℤ) (v : ℚ)
    (u i : ℤ) (j j' : ℕ) :
    (alookup idx.1 (applyOps rmEmpty ops).outerToInnerUid = none →
      alookup idx.1 (setItem (applyOps rmEmpty ops) idx v).outerToInnerUid =
        some (applyOps rmEmpty ops).innerToOuterUid.length ∧
      (setItem (applyOps rmEmpty ops) idx v).innerToOuterUid =
        (applyOps rmEmpty ops).innerToOuterUid ++ [idx.1]) ∧
    (alookup idx.2 (applyOps rmEmpty ops).outerToInnerIid = none →
      alookup idx.2 (setItem (applyOps rmEmpty ops) idx v).outerToInnerIid =
        some (applyOps rmEmpty ops).innerToOuterIid.length ∧
      (setItem (applyOps rmEmpty ops) idx v).innerToOuterIid =
        (applyOps rmEmpty ops).innerToOuterIid ++ [idx.2]) ∧
    (alookup u (applyOps rmEmpty ops).outerToInnerUid = some j →
      alookup u (applyOps rmEmpty (ops ++ more)).outerToInnerUid = some j) ∧
    (alookup i (applyOps rmEmpty ops).outerToInnerIid = some j' →
      alookup i (applyOps rmEmpty (ops ++ more)).outerToInnerIid = some j') ∧
    (∃ t, (applyOps rmEmpty (ops ++ more)).innerToOuterUid =
      (applyOps rmEmpty ops).innerToOuterUid ++ t) ∧
    (∃ t, (applyOps rmEmpty (ops ++ more)).innerToOuterIid =
      (applyOps rmEmpty ops).innerToOuterIid ++ t) := by
  have hsplit : applyOps rmEmpty (ops ++ more) = applyOps (applyOps rmEmpty ops) more := by
    rw [applyOps, applyOps, applyOps, List.foldl_append]
  have hshape : RMShapeInv (applyOps rmEmpty ops) :=
    applyOps_shapeInv ops rmEmpty ⟨rfl, rfl⟩
  refine ⟨?_, ?_, ?_, ?_, ?_, ?_⟩
  · intro hfresh
    have hns : ¬(alookup idx.1 (applyOps rmEmpty ops).outerToInnerUid).isSome = true := by
      rw [hfresh]
      simp
    constructor
    · rw [(setItem_uid_form _ idx v).1, if_neg hns,
        alookup_append_right idx.1 _ _ hfresh, hshape.1.symm]
      simp [alookup]
    · rw [(setItem_uid_form _ idx v).2.1, if_neg hns]
  · intro hfresh
    have hns : ¬(alookup idx.2 (applyOps rmEmpty ops).outerToInnerIid).isSome = true := by
      rw [hfresh]
      simp
    constructor
    · rw [(setItem_iid_form _ idx v).1, if_neg hns,
        alookup_append_right idx.2 _ _ hfresh, hshape.2.symm]
      simp [alookup]
    · rw [(setItem_iid_form _ idx v).2.1, if_neg hns]
  · intro h
    rw [hsplit]
    exact (applyOps_keeps_ids more _ u i j j').1 h
  · intro h
    rw [hsplit]
    exact (applyOps_keeps_ids more _ u i j j').2 h
  · rw [hsplit]
    exact (applyOps_grows more _).1
  · rw [hsplit]
    exact (applyOps_grows more _).2

/-- Witness for C6: after setting `(7, 9)` in the empty matrix, the unseen
user id `5` is assigned row index `1` (appended after user `7`), and the
assignment of user `7` to row `0` survives a further `set` of `(8, 9)`. -/
theorem C6_id_assignment_monotone_witness :
    (alookup 5 (setItem (applyOps rmEmpty [((7, 9), 5)]) (5, 9) 4).outerToInnerUid =
      some (applyOps rmEmpty [((7, 9), 5)]).innerToOuterUid.length ∧
     (setItem (applyOps rmEmpty [((7, 9), 5)]) (5, 9) 4).innerToOuterUid =
      (applyOps rmEmpty [((7, 9), 5)]).innerToOuterUid ++ [5]) ∧
    alookup 7 (applyOps rmEmpty ([((7, 9), 5)] ++ [((8, 9), 3)])).outerToInnerUid = some 0 :=
  ⟨(C6_id_assignment_monotone [((7, 9), 5)] [((8, 9), 3)] (5, 9) 4 7 9 0 0).1 (by rfl),
   (C6_id_assignment_monotone [((7, 9), 5)] [((8, 9), 3)] (5, 9) 4 7 9 0 0).2.2.1 (by rfl)⟩

/-- C5 (code bug evaluation): on the matrix holding the single rating at
(user 7, item 9), `user_ordering()` returns `(9,)` — the item ordering —
although row 0 belongs to user 7, so it is not the inverse of the user
id-to-index map; `item_ordering()` does return the item ids. -/
theorem C5_user_ordering_returns_item_ids :
    user_ordering (setItem rmEmpty (7, 9) 5) = [9] ∧
    (setItem rmEmpty (7, 9) 5).innerToOuterUid = [7] ∧
    ¬user_ordering (setItem rmEmpty (7, 9) 5) =
      (setItem rmEmpty (7, 9) 5).innerToOuterUid ∧
    item_ordering (setItem rmEmpty (7, 9) 5) = [9] := by
  refine ⟨rfl, rfl, ?_, rfl⟩
  intro h
  have h9 : ([9] : List ℤ) = [7] := h
  simp at h9

/- ### argsort lemmas -/

instance : IsTotal (ℕ × ℚ) (fun a b => a.2 ≤ b.2) :=
  ⟨fun a b => le_total a.2 b.2⟩

instance : IsTrans (ℕ × ℚ) (fun a b => a.2 ≤ b.2) :=
  ⟨fun _ _ _ h1 h2 => le_trans h1 h2⟩

/-- The argsort of a list is a permutation of its index range. -/
theorem argsortQ_perm (xs : List ℚ) : List.Perm (argsortQ xs) (List.range xs.length) := by
  have h := (List.perm_insertionSort (fun a b : ℕ × ℚ => a.2 ≤ b.2) xs.enum).map Prod.fst
  rw [List.enum_map_fst] at h
  exact h

/-- The argsort has one entry per list element. -/
theorem argsortQ_length (xs : List ℚ) : (argsortQ xs).length = xs.length :=
  (argsortQ_perm xs).length_eq.trans (List.length_range _)

/-- The argsort holds pairwise-distinct indices. -/
theorem argsortQ_nodup (xs : List ℚ) : (argsortQ xs).Nodup :=
  (argsortQ_perm xs).nodup_iff.mpr (List.nodup_range _)

/-- The argsort holds exactly the in-range indices. -/
theorem mem_argsortQ (xs : List ℚ) {j : ℕ} : j ∈ argsortQ xs ↔ j < xs.length := by
  rw [(argsortQ_perm xs).mem_iff, List.mem_range]

/-- A pair of the enumeration records an in-range index and its list value. -/
theorem enum_getD (xs : List ℚ) (p : ℕ × ℚ) (hp : p ∈ xs.enum) :
    p.1 < xs.length ∧ xs.getD p.1 0 = p.2 := by
  have h := List.mem_enum_iff_getElem?.mp hp
  have hlt : p.1 < xs.length := (List.getElem?_eq_some_iff.mp h).1
  refine ⟨hlt, ?_⟩
  rw [List.getD_eq_getElem?_getD, h]
  rfl

/-- The tail slice of a list of at least `k` elements has exactly `k`
elements. -/
theorem lastSlice_length {α : Type} (k : ℕ) (l : List α) (hk : 1 ≤ k)
    (hkl : k ≤ l.length) : (lastSlice k l).length = k := by
  rw [lastSlice, if_neg (by omega : ¬k = 0), List.length_drop]
  omega

/-- The tail slice is a sublist. -/
theorem lastSlice_sublist {α : Type} (k : ℕ) (l : List α) :
    List.Sublist (lastSlice k l) l := by
  rw [lastSlice]
  split
  · exact List.Sublist.refl l
  · exact List.drop_sublist _ l

/-- Taking the tail slice commutes with mapping. -/
theorem lastSlice_map {α β : Type} (k : ℕ) (f : α → β) (l : List α) :
    lastSlice k (l.map f) = (lastSlice k l).map f := by
  rw [lastSlice, lastSlice, List.length_map]
  split
  · rfl
  · rw [List.map_drop]

/-- Dominance of the selected tail of an argsort: every unselected in-range
index carries a value no greater than every selected one. -/
theorem argsortQ_dominance (xs : List ℚ) (k : ℕ) (hk : 1 ≤ k) :
    ∀ j, j < xs.length → j ∉ lastSlice k (argsortQ xs) →
      ∀ b ∈ lastSlice k (argsortQ xs), xs.getD j 0 ≤ xs.getD b 0 := by
  intro j hj hjn b hb
  have hsorted : List.Sorted (fun a b : ℕ × ℚ => a.2 ≤ b.2)
      (xs.enum.insertionSort (fun a b => a.2 ≤ b.2)) :=
    List.sorted_insertionSort _ _
  have hargeq : argsortQ xs = (xs.enum.insertionSort (fun a b => a.2 ≤ b.2)).map Prod.fst := rfl
  have hlast : lastSlice k (argsortQ xs) =
      (lastSlice k (xs.enum.insertionSort (fun a b => a.2 ≤ b.2))).map Prod.fst := by
    rw [hargeq, lastSlice_map]
  have hmemsort : ∀ p : ℕ × ℚ, p ∈ xs.enum.insertionSort (fun a b => a.2 ≤ b.2) →
      p.1 < xs.length ∧ xs.getD p.1 0 = p.2 := by
    intro p hp
    exact enum_getD xs p
      ((List.perm_insertionSort (fun a b : ℕ × ℚ => a.2 ≤ b.2) xs.enum).mem_iff.mp hp)
  -- split the sorted list into the unselected front and the selected back
  have hback : lastSlice k (xs.enum.insertionSort (fun a b => a.2 ≤ b.2)) =
      (xs.enum.insertionSort (fun a b => a.2 ≤ b.2)).drop
        ((xs.enum.insertionSort (fun a b => a.2 ≤ b.2)).length - k) := by
    rw [lastSlice, if_neg (by omega : ¬k = 0)]
  have hsplit := List.take_append_drop
    ((xs.enum.insertionSort (fun a b => a.2 ≤ b.2)).length - k)
    (xs.enum.insertionSort (fun a b => a.2 ≤ b.2))
  have hpairwise : ∀ p ∈ (xs.enum.insertionSort (fun a b => a.2 ≤ b.2)).take
      ((xs.enum.insertionSort (fun a b => a.2 ≤ b.2)).length - k),
      ∀ q ∈ (xs.enum.insertionSort (fun a b => a.2 ≤ b.2)).drop
        ((xs.enum.insertionSort (fun a b => a.2 ≤ b.2)).length - k),
      p.2 ≤ q.2 := by
    have h := hsorted
    rw [List.Sorted, ← hsplit, List.pairwise_append] at h
    exact h.2.2
  -- locate b in the selected back
  rw [hlast] at hb
  obtain ⟨q, hq, rfl⟩ := List.mem_map.mp hb
  rw [hback] at hq
  -- locate j in the unselected front
  have hjarg : j ∈ argsortQ xs := (mem_argsortQ xs).mpr hj
  rw [hargeq] at hjarg
  rw [← hsplit, List.map_append] at hjarg
  rcases List.mem_append.mp hjarg with hfront | hback2
  · obtain ⟨p, hp, rfl⟩ := List.mem_map.mp hfront
    have hpv := (hmemsort p (List.take_subset _ _ hp)).2
    have hqv := (hmemsort q (List.drop_subset _ _ hq)).2
    rw [hpv, hqv]
    exact hpairwise p hp q hq
  · exfalso
    apply hjn
    rw [hlast, hback]
    exact hback2

/-- In-range `getD` reads the actual element. -/
theorem getD_lt {α : Type} (l : List α) (i : ℕ) (d : α) (h : i < l.length) :
    l.getD i d = l.get ⟨i, h⟩ := by
  rw [List.getD_eq_getElem?_getD, List.getElem?_eq_getElem h]
  rfl

/-- In-range `getD` through a `map`. -/
theorem getD_map_lt {α β : Type} (l : List α) (h : α → β) (i : ℕ) (hi : i < l.length)
    (d : α) (d' : β) : (l.map h).getD i d' = h (l.getD i d) := by
  rw [List.getD_eq_getElem?_getD, List.getD_eq_getElem?_getD, List.getElem?_map,
    List.getElem?_eq_getElem hi]
  rfl

/-- An in-range `getD` value is a member. -/
theorem getD_mem {α : Type} (l : List α) (i : ℕ) (d : α) (h : i < l.length) :
    l.getD i d ∈ l := by
  rw [getD_lt l i d h]
  exact List.get_mem l i h

/-- Top-k selection for one user row of `recommend`: with at least `k`
candidates and duplicate-free candidate ids, `argsort`-tail selection returns
`k` distinct candidate ids paired consistently with their predictions, and no
unselected candidate has a strictly higher prediction than any selected one. -/
theorem topk_row (ids : List ℤ) (g : ℤ → ℚ) (k : ℕ) (hk : 1 ≤ k)
    (hlen : k ≤ ids.length) (hnd : ids.Nodup) :
    ((lastSlice k (argsortQ (ids.map g))).map (fun b => ids.getD b 0)).length = k ∧
    ((lastSlice k (argsortQ (ids.map g))).map (fun b => (ids.map g).getD b 0)).length = k ∧
    ((lastSlice k (argsortQ (ids.map g))).map (fun b => ids.getD b 0)).Nodup ∧
    (∀ x ∈ (lastSlice k (argsortQ (ids.map g))).map (fun b => ids.getD b 0), x ∈ ids) ∧
    (∀ pos, pos < k →
      ((lastSlice k (argsortQ (ids.map g))).map (fun b => (ids.map g).getD b 0)).getD pos 0 =
        g (((lastSlice k (argsortQ (ids.map g))).map (fun b => ids.getD b 0)).getD pos 0)) ∧
    (∀ x ∈ ids, x ∉ (lastSlice k (argsortQ (ids.map g))).map (fun b => ids.getD b 0) →
      ∀ y ∈ (lastSlice k (argsortQ (ids.map g))).map (fun b => ids.getD b 0), g x ≤ g y) := by
  have hplen : (ids.map g).length = ids.length := List.length_map _ _
  have hargl : (argsortQ (ids.map g)).length = ids.length := by
    rw [argsortQ_length, hplen]
  have hbl : (lastSlice k (argsortQ (ids.map g))).length = k :=
    lastSlice_length k _ hk (by rw [hargl]; exact hlen)
  have hbmem : ∀ b ∈ lastSlice k (argsortQ (ids.map g)), b < ids.length := by
    intro b hb
    have := (mem_argsortQ (ids.map g)).mp ((lastSlice_sublist k _).subset hb)
    rwa [hplen] at this
  have hpred : ∀ b, b < ids.length → (ids.map g).getD b 0 = g (ids.getD b 0) :=
    fun b hb => getD_map_lt ids g b hb 0 0
  refine ⟨?_, ?_, ?_, ?_, ?_, ?_⟩
  · rw [List.length_map, hbl]
  · rw [List.length_map, hbl]
  · refine List.Nodup.map_on ?_ ((lastSlice_sublist k _).nodup (argsortQ_nodup _))
    intro b hb b' hb' heq
    have h1 := hbmem b hb
    have h2 := hbmem b' hb'
    rw [getD_lt ids b 0 h1, getD_lt ids b' 0 h2] at heq
    exact congrArg Fin.val (hnd.get_inj_iff.mp heq)
  · intro x hx
    obtain ⟨b, hb, rfl⟩ := List.mem_map.mp hx
    exact getD_mem ids b 0 (hbmem b hb)
  · intro pos hpos
    have hposb : pos < (lastSlice k (argsortQ (ids.map g))).length := by rw [hbl]; exact hpos
    rw [getD_map_lt _ _ pos hposb 0 0, getD_map_lt _ _ pos hposb 0 0]
    exact hpred _ (hbmem _ (getD_mem _ pos 0 hposb))
  · intro x hx hxn y hy
    obtain ⟨b, hb, rfl⟩ := List.mem_map.mp hy
    obtain ⟨jx, hjx, hjval⟩ := List.mem_iff_getElem.mp hx
    have hjn : jx ∉ lastSlice k (argsortQ (ids.map g)) := by
      intro hmem
      apply hxn
      refine List.mem_map.mpr ⟨jx, hmem, ?_⟩
      rw [getD_lt ids jx 0 hjx]
      exact hjval
    have hdom := argsortQ_dominance (ids.map g) k hk jx (by rwa [hplen]) hjn b hb
    rw [hpred jx hjx, hpred b (hbmem b hb)] at hdom
    rw [getD_lt ids jx 0 hjx] at hdom
    rw [show ids.get ⟨jx, hjx⟩ = x from hjval] at hdom
    exact hdom

/-- Splitting a flattened list at the segment lengths recovers the segments. -/
theorem splitSegs_self : ∀ ls : List (List ℚ),
    splitSegs (ls.map List.length) ls.flatten = ls := by
  intro ls
  induction ls with
  | nil => rfl
  | cons l rest ih =>
    rw [List.map_cons, List.flatten_cons, splitSegs, List.take_left, List.drop_left, ih]

/-- Normal form of `recommend`: one row per user in order, each row obtained
from that user's candidate list and predictions alone (the flatten/predict/
split pipeline is exactly the per-user computation). -/
theorem recommendP_eq (s : PRState) (f : ℤ → ℤ → List ℚ → ℚ) (ucs : List (ℤ × List ℚ))
    (k : ℕ) :
    recommendP s f ucs k =
      (ucs.map (fun p =>
        (lastSlice k (argsortQ ((candidateItems s p.1).map (fun j => f p.1 j p.2)))).map
          (fun b => (candidateItems s p.1).getD b 0)),
       ucs.map (fun p =>
        (lastSlice k (argsortQ ((candidateItems s p.1).map (fun j => f p.1 j p.2)))).map
          (fun b => ((candidateItems s p.1).map (fun j => f p.1 j p.2)).getD b 0))) := by
  rw [recommendP]
  have hpreds :
      (((ucs.map (fun p => (candidateItems s p.1).map (fun j => (p.1, j, p.2)))).flatten).map
        (fun t => f t.1 t.2.1 t.2.2)) =
      (ucs.map (fun p => (candidateItems s p.1).map (fun j => f p.1 j p.2))).flatten := by
    simp only [List.map_flatten, List.map_map, Function.comp_def]
  rw [hpreds]
  have hlens : (ucs.map (fun p => candidateItems s p.1)).map List.length =
      (ucs.map (fun p => (candidateItems s p.1).map (fun j => f p.1 j p.2))).map
        List.length := by
    simp only [List.map_map, Function.comp_def, List.length_map]
  rw [hlens, splitSegs_self]
  rw [List.zip_map']
  simp only [List.map_map, Function.comp_def]

/-- Statement of claim C1 for a given call: `recommend` returns one row per
user in the order given, each row holding exactly `k` distinct unrated-item
ids whose predictions dominate every unselected candidate's, with
`predicted_ratings[i][j]` exactly the prediction of `recs[i][j]`. -/
def TopKRows (s : PRState) (f : ℤ → ℤ → List ℚ → ℚ) (ucs : List (ℤ × List ℚ))
    (k : ℕ) : Prop :=
  (recommendP s f ucs k).1.length = ucs.length ∧
  (recommendP s f ucs k).2.length = ucs.length ∧
  ∀ idx, idx < ucs.length →
    ((recommendP s f ucs k).1.getD idx []).length = k ∧
    ((recommendP s f ucs k).2.getD idx []).length = k ∧
    ((recommendP s f ucs k).1.getD idx []).Nodup ∧
    (∀ x ∈ (recommendP s f ucs k).1.getD idx [],
      x ∈ candidateItems s (ucs.getD idx (0, [])).1) ∧
    (∀ pos, pos < k →
      ((recommendP s f ucs k).2.getD idx []).getD pos 0 =
        f (ucs.getD idx (0, [])).1 (((recommendP s f ucs k).1.getD idx []).getD pos 0)
          (ucs.getD idx (0, [])).2) ∧
    (∀ x ∈ candidateItems s (ucs.getD idx (0, [])).1,
      x ∉ (recommendP s f ucs k).1.getD idx [] →
      ∀ y ∈ (recommendP s f ucs k).1.getD idx [],
        f (ucs.getD idx (0, [])).1 x (ucs.getD idx (0, [])).2 ≤
          f (ucs.getD idx (0, [])).1 y (ucs.getD idx (0, [])).2)

/-- C1: for every ordered mapping of user contexts and every positive `k`
such that each listed user has at least `k` unrated items (and with the item
dict keys duplicate-free, as Python dict keys always are), `recommend`
returns, for each user in order, `k` of that user's unrated item ids whose
predicted ratings are highest — no unselected candidate's prediction exceeds
any selected one's — and the two returned arrays are pairwise consistent:
`predicted_ratings[i][j]` is exactly the prediction produced for the item
`recs[i][j]`. -/
theorem C1_recommend_topk (s : PRState) (f : ℤ → ℤ → List ℚ → ℚ)
    (ucs : List (ℤ × List ℚ)) (k : ℕ) (hk : 1 ≤ k)
    (hc : ∀ p ∈ ucs, k ≤ (candidateItems s p.1).length)
    (hnd : (s.items.map Prod.fst).Nodup) :
    TopKRows s f ucs k := by
  rw [TopKRows, recommendP_eq]
  refine ⟨List.length_map _ _, List.length_map _ _, ?_⟩
  intro idx hidx
  have hp : ucs.getD idx (0, []) ∈ ucs := getD_mem ucs idx (0, []) hidx
  have hrow := topk_row (candidateItems s (ucs.getD idx (0, [])).1)
    (fun j => f (ucs.getD idx (0, [])).1 j (ucs.getD idx (0, [])).2) k hk
    (hc _ hp) (hnd.filter _)
  have hget1 : (ucs.map (fun p =>
      (lastSlice k (argsortQ ((candidateItems s p.1).map (fun j => f p.1 j p.2)))).map
        (fun b => (candidateItems s p.1).getD b 0))).getD idx [] =
      (lastSlice k (argsortQ ((candidateItems s (ucs.getD idx (0, [])).1).map
        (fun j => f (ucs.getD idx (0, [])).1 j (ucs.getD idx (0, [])).2)))).map
        (fun b => (candidateItems s (ucs.getD idx (0, [])).1).getD b 0) :=
    getD_map_lt ucs _ idx hidx (0, []) []
  have hget2 : (ucs.map (fun p =>
      (lastSlice k (argsortQ ((candidateItems s p.1).map (fun j => f p.1 j p.2)))).map
        (fun b => ((candidateItems s p.1).map (fun j => f p.1 j p.2)).getD b 0))).getD idx [] =
      (lastSlice k (argsortQ ((candidateItems s (ucs.getD idx (0, [])).1).map
        (fun j => f (ucs.getD idx (0, [])).1 j (ucs.getD idx (0, [])).2)))).map
        (fun b => ((candidateItems s (ucs.getD idx (0, [])).1).map
          (fun j => f (ucs.getD idx (0, [])).1 j (ucs.getD idx (0, [])).2)).getD b 0) :=
    getD_map_lt ucs _ idx hidx (0, []) []
  rw [hget1, hget2]
  exact hrow

/-- Concrete state for the C1 witness: the simple-recommend scenario of the
repository's tests — users 0 and 1, items 0, 1, 2, and four initial
ratings. -/
def wState : PRState :=
  (resetP (some [(0, []), (1, [])]) (some [(0, []), (1, []), (2, [])])
    (some [((0, 0), (5, [])), ((0, 1), (1, [])), ((0, 2), (5, [])), ((1, 0), (5, []))])).1

/-- Concrete predictor for the C1 witness: predict the item id itself. -/
def wPredict : ℤ → ℤ → List ℚ → ℚ := fun _ j _ => (j : ℚ)

/-- Witness for C1: requesting one recommendation for user 1 in the
test scenario satisfies the claim's conclusions. -/
theorem C1_recommend_topk_witness : TopKRows wState wPredict [(1, [])] 1 :=
  C1_recommend_topk wState wPredict [(1, [])] 1 (by decide)
    (by intro p hp; rw [List.mem_singleton] at hp; rw [hp]; decide)
    (by decide)

/- ### knn_recommender.py: cosine_similarity -/

/-- The `divide_zero` guard at real scalars, as used inside
`cosine_similarity` (row norms require square roots, so this half of the
development lives over `ℝ`). -/
noncomputable def divide_zeroR (num denom : ℝ) : ℝ :=
  if denom ≠ 0 then num / denom else 0

/-- Entry of `X @ Y.T`: the dot product of two rows
(`zipWith` mirrors numpy's elementwise product of equal-length rows). -/
def dotL (x y : List ℝ) : ℝ :=
  (List.zipWith (· * ·) x y).sum

/-- Row 2-norm `scipy.sparse.linalg.norm(·, axis=1)`. -/
noncomputable def norm2 (x : List ℝ) : ℝ :=
  Real.sqrt ((x.map (fun a => a ^ 2)).sum)

/-- Embedding of `cosine_similarity(X, Y, shrinkage)`:
`divide_zero((X @ Y.T).A, norm(X, axis=1)[:, None] * norm(Y, axis=1)[None, :]
+ shrinkage)` — entry `[i][j]` divides the dot product of `X[i]` and `Y[j]`
by `‖X[i]‖ * ‖Y[j]‖ + shrinkage` under the exact-zero guard. -/
noncomputable def cosine_similarity (X Y : List (List ℝ)) (shrinkage : ℝ) :
    List (List ℝ) :=
  X.map (fun x => Y.map (fun y => divide_zeroR (dotL x y) (norm2 x * norm2 y + shrinkage)))

/-- Sums of squares are nonnegative. -/
theorem sumsq_nonneg (x : List ℝ) : 0 ≤ (x.map (fun a => a ^ 2)).sum := by
  apply List.sum_nonneg
  intro a ha
  obtain ⟨b, _, rfl⟩ := List.mem_map.mp ha
  positivity

/-- A row with a nonzero entry has a positive sum of squares. -/
theorem sumsq_pos (x : List ℝ) (hx : ∃ a ∈ x, a ≠ 0) :
    0 < (x.map (fun a => a ^ 2)).sum := by
  obtain ⟨a, ha, hane⟩ := hx
  induction x with
  | nil => cases ha
  | cons b xs ih =>
    rw [List.map_cons, List.sum_cons]
    rcases List.mem_cons.mp ha with rfl | hmem
    · have h1 : 0 < a ^ 2 := by positivity
      have h2 : 0 ≤ (xs.map (fun a => a ^ 2)).sum := sumsq_nonneg xs
      linarith
    · have h1 : 0 ≤ b ^ 2 := sq_nonneg b
      have h2 : 0 < (xs.map (fun a => a ^ 2)).sum := ih hmem
      linarith

/-- A row with a nonzero entry has a positive 2-norm. -/
theorem norm2_pos (x : List ℝ) (hx : ∃ a ∈ x, a ≠ 0) : 0 < norm2 x :=
  Real.sqrt_pos.mpr (sumsq_pos x hx)

/-- The dot product as a finite sum over the common index range. -/
theorem dotL_eq_sum : ∀ x y : List ℝ,
    dotL x y = ∑ i ∈ Finset.range (min x.length y.length), x.getD i 0 * y.getD i 0
  | [], y => by simp [dotL]
  | a :: xs, [] => by simp [dotL]
  | a :: xs, b :: ys => by
    rw [dotL, List.zipWith_cons_cons, List.sum_cons]
    have ih := dotL_eq_sum xs ys
    rw [show dotL xs ys = (List.zipWith (· * ·) xs ys).sum from rfl] at ih
    rw [ih, List.length_cons, List.length_cons, Nat.succ_min_succ,
      Finset.sum_range_succ']
    simp [add_comm]

/-- The sum of squares as a finite sum over the index range. -/
theorem sumsq_eq_sum : ∀ x : List ℝ,
    (x.map (fun a => a ^ 2)).sum = ∑ i ∈ Finset.range x.length, x.getD i 0 ^ 2
  | [] => by simp
  | a :: xs => by
    rw [List.map_cons, List.sum_cons, sumsq_eq_sum xs, List.length_cons,
      Finset.sum_range_succ']
    simp [add_comm]

/-- Cauchy–Schwarz for list dot products. -/
theorem dotL_sq_le (x y : List ℝ) :
    dotL x y ^ 2 ≤ (x.map (fun a => a ^ 2)).sum * (y.map (fun a => a ^ 2)).sum := by
  rw [dotL_eq_sum, sumsq_eq_sum, sumsq_eq_sum]
  have hcs := Finset.sum_mul_sq_le_sq_mul_sq (Finset.range (min x.length y.length))
    (fun i => x.getD i 0) (fun i => y.getD i 0)
  refine le_trans hcs (mul_le_mul ?_ ?_ ?_ ?_)
  · exact Finset.sum_le_sum_of_subset_of_nonneg
      (Finset.range_subset.mpr (min_le_left _ _))
      (fun i _ _ => sq_nonneg _)
  · exact Finset.sum_le_sum_of_subset_of_nonneg
      (Finset.range_subset.mpr (min_le_right _ _))
      (fun i _ _ => sq_nonneg _)
  · exact Finset.sum_nonneg fun i _ => sq_nonneg _
  · exact Finset.sum_nonneg fun i _ => sq_nonneg _

/-- Cauchy–Schwarz with norms: the dot product is bounded by the product of
the 2-norms. -/
theorem abs_dotL_le (x y : List ℝ) : |dotL x y| ≤ norm2 x * norm2 y := by
  rw [← Real.sqrt_sq_eq_abs, norm2, norm2, ← Real.sqrt_mul (sumsq_nonneg x)]
  exact Real.sqrt_le_sqrt (dotL_sq_le x y)

/- ### Theorems for claim C8 -/

/-- C8 as amended: for rows `X[i]`, `Y[j]` with a nonzero entry each,
(1) at shrinkage 0 the similarity entry lies in `[-1, 1]`; (2) for shrinkages
`0 ≤ s < s'` the magnitude at `s'` is at most the magnitude at `s` (monotone
dampening); (3) the divide-by-zero guard maps a denominator of exactly `0`
to similarity `0` rather than NaN. -/
theorem C8_cosine_similarity_bounds (X Y : List (List ℝ)) (i j : ℕ) (s s' : ℝ)
    (hi : i < X.length) (hj : j < Y.length)
    (hx : ∃ a ∈ X.getD i [], a ≠ 0) (hy : ∃ a ∈ Y.getD j [], a ≠ 0)
    (hs : 0 ≤ s) (hss : s < s') :
    (-1 ≤ ((cosine_similarity X Y 0).getD i []).getD j 0 ∧
      ((cosine_similarity X Y 0).getD i []).getD j 0 ≤ 1) ∧
    |((cosine_similarity X Y s').getD i []).getD j 0| ≤
      |((cosine_similarity X Y s).getD i []).getD j 0| ∧
    (∀ num : ℝ, divide_zeroR num 0 = 0) := by
  have hentry : ∀ t : ℝ, ((cosine_similarity X Y t).getD i []).getD j 0 =
      divide_zeroR (dotL (X.getD i []) (Y.getD j []))
        (norm2 (X.getD i []) * norm2 (Y.getD j []) + t) := by
    intro t
    rw [cosine_similarity, getD_map_lt X _ i hi [] [], getD_map_lt Y _ j hj [] 0]
  have hD : 0 < norm2 (X.getD i []) * norm2 (Y.getD j []) :=
    mul_pos (norm2_pos _ hx) (norm2_pos _ hy)
  have hcs := abs_dotL_le (X.getD i []) (Y.getD j [])
  refine ⟨?_, ?_, ?_⟩
  · rw [hentry 0, divide_zeroR, if_pos (ne_of_gt (by linarith : (0:ℝ) <
      norm2 (X.getD i []) * norm2 (Y.getD j []) + 0))]
    have habs : |dotL (X.getD i []) (Y.getD j []) /
        (norm2 (X.getD i []) * norm2 (Y.getD j []) + 0)| ≤ 1 := by
      rw [abs_div, abs_of_pos (show (0:ℝ) <
        norm2 (X.getD i []) * norm2 (Y.getD j []) + 0 by linarith)]
      rw [div_le_one (by linarith)]
      calc |dotL (X.getD i []) (Y.getD j [])| ≤
          norm2 (X.getD i []) * norm2 (Y.getD j []) := hcs
        _ ≤ norm2 (X.getD i []) * norm2 (Y.getD j []) + 0 := by linarith
    exact abs_le.mp habs
  · rw [hentry s, hentry s', divide_zeroR, divide_zeroR,
      if_pos (ne_of_gt (by linarith : (0:ℝ) <
        norm2 (X.getD i []) * norm2 (Y.getD j []) + s')),
      if_pos (ne_of_gt (by linarith : (0:ℝ) <
        norm2 (X.getD i []) * norm2 (Y.getD j []) + s)),
      abs_div, abs_div,
      abs_of_pos (by linarith : (0:ℝ) < norm2 (X.getD i []) * norm2 (Y.getD j []) + s'),
      abs_of_pos (by linarith : (0:ℝ) < norm2 (X.getD i []) * norm2 (Y.getD j []) + s)]
    rcases (abs_nonneg (dotL (X.getD i []) (Y.getD j []))).eq_or_lt with hz | hpos
    · rw [← hz]
      simp
    · exact (div_le_div_iff_of_pos_left hpos (by linarith) (by linarith)).mpr (by linarith)
  · intro num
    simp [divide_zeroR]

/-- Witness for C8 at the concrete rows `[3, 4]` with shrinkages `0 < 1`. -/
theorem C8_cosine_similarity_bounds_witness :
    (-1 ≤ ((cosine_similarity [[(3:ℝ), 4]] [[(3:ℝ), 4]] 0).getD 0 []).getD 0 0 ∧
      ((cosine_similarity [[(3:ℝ), 4]] [[(3:ℝ), 4]] 0).getD 0 []).getD 0 0 ≤ 1) ∧
    |((cosine_similarity [[(3:ℝ), 4]] [[(3:ℝ), 4]] 1).getD 0 []).getD 0 0| ≤
      |((cosine_similarity [[(3:ℝ), 4]] [[(3:ℝ), 4]] 0).getD 0 []).getD 0 0| ∧
    (∀ num : ℝ, divide_zeroR num 0 = 0) :=
  C8_cosine_similarity_bounds [[(3:ℝ), 4]] [[(3:ℝ), 4]] 0 0 0 1 (by norm_num)
    (by norm_num) ⟨3, by norm_num, by norm_num⟩ ⟨3, by norm_num, by norm_num⟩
    le_rfl (by norm_num)

/-- Counterexample to the claim's approximately-zero clause: for the nonzero
rows `[3e-6, 4e-6]` at shrinkage 0 the denominator is `2.5e-11`, within the
`np.isclose` tolerance of zero, yet the similarity is `1`, not `0` — the
guard in `divide_zero` tests the denominator against exactly `0`
(`where=(denom != 0)`), not approximately. -/
theorem C8_isclose_denominator_counterexample :
    |norm2 [(3:ℝ)/1000000, 4/1000000] * norm2 [(3:ℝ)/1000000, 4/1000000] + 0| ≤
      1/100000000 ∧
    ((cosine_similarity [[(3:ℝ)/1000000, 4/1000000]]
      [[(3:ℝ)/1000000, 4/1000000]] 0).getD 0 []).getD 0 0 = 1 ∧
    ((cosine_similarity [[(3:ℝ)/1000000, 4/1000000]]
      [[(3:ℝ)/1000000, 4/1000000]] 0).getD 0 []).getD 0 0 ≠ 0 := by
  have hnorm : norm2 [(3:ℝ)/1000000, 4/1000000] = 5/1000000 := by
    rw [norm2]
    rw [show (([(3:ℝ)/1000000, 4/1000000]).map (fun a => a ^ 2)).sum =
      ((5:ℝ)/1000000) ^ 2 by norm_num]
    exact Real.sqrt_sq (by norm_num)
  have hdot : dotL [(3:ℝ)/1000000, 4/1000000] [(3:ℝ)/1000000, 4/1000000] =
      25/1000000000000 := by
    norm_num [dotL]
  have hentry : ((cosine_similarity [[(3:ℝ)/1000000, 4/1000000]]
      [[(3:ℝ)/1000000, 4/1000000]] 0).getD 0 []).getD 0 0 =
      divide_zeroR (dotL [(3:ℝ)/1000000, 4/1000000] [(3:ℝ)/1000000, 4/1000000])
        (norm2 [(3:ℝ)/1000000, 4/1000000] * norm2 [(3:ℝ)/1000000, 4/1000000] + 0) := rfl
  have hval : ((cosine_similarity [[(3:ℝ)/1000000, 4/1000000]]
      [[(3:ℝ)/1000000, 4/1000000]] 0).getD 0 []).getD 0 0 = 1 := by
    rw [hentry, hnorm, hdot, divide_zeroR, if_pos (by norm_num : ((5:ℝ)/1000000) *
      (5/1000000) + 0 ≠ 0)]
    norm_num
  refine ⟨?_, hval, ?_⟩
  · rw [hnorm]
    rw [abs_of_pos (by norm_num : (0:ℝ) < (5:ℝ)/1000000 * (5/1000000) + 0)]
    norm_num
  · rw [hval]
    norm_num
